import Mathlib

set_option maxHeartbeats 1000000

namespace Enzyme

/-- Primitive prop values carried by a node's props map. -/
inductive PropVal where
  | str (s : String)
  | int (n : Int)
  | bool (b : Bool)
deriving DecidableEq

/-- Shape of the value stored under the children prop of an element:
no children key at all, a single (non-array) child, or an array of children. -/
inductive CKind where
  | absent
  | single
  | array
deriving DecidableEq

/-- Model of a rendered node value. `elem` is a React element with a type
string, non-children props, and its children prop; `text`/`num` are text
children; `undef` is the JS undefined value that can sit in node slots. -/
inductive Node where
  | elem (ntype : String) (props : List (String × PropVal)) (ckind : CKind) (children : List Node)
  | text (s : String)
  | num (n : Int)
  | undef

mutual

/-- Structural boolean equality of node values (used to model JS `===`
on nodes; in a tree of distinct node objects, reference equality and
structural equality of the model coincide). -/
def nodeBEq : Node → Node → Bool
  | .elem t1 p1 k1 l1, .elem t2 p2 k2 l2 =>
    t1 == t2 && p1 == p2 && k1 == k2 && nodeListBEq l1 l2
  | .text s1, .text s2 => s1 == s2
  | .num n1, .num n2 => n1 == n2
  | Node.undef, Node.undef => true
  | _, _ => false

/-- Pointwise structural equality of node lists. -/
def nodeListBEq : List Node → List Node → Bool
  | [], [] => true
  | a :: as, b :: bs => nodeBEq a b && nodeListBEq as bs
  | _, _ => false

end

theorem nodeListBEq_iff_aux (la lb : List Node)
    (ih : ∀ x ∈ la, ∀ y : Node, (nodeBEq x y = true ↔ x = y)) :
    nodeListBEq la lb = true ↔ la = lb := by
  induction la generalizing lb with
  | nil => cases lb <;> simp [nodeListBEq]
  | cons a as ihl =>
    cases lb with
    | nil => simp [nodeListBEq]
    | cons b bs =>
      simp only [nodeListBEq, Bool.and_eq_true]
      rw [ih a (by simp), ihl bs (fun x hx y => ih x (by simp [hx]) y)]
      simp

theorem nodeBEq_iff (a b : Node) : nodeBEq a b = true ↔ a = b := by
  have key : ∀ (m : Nat) (a b : Node), sizeOf a ≤ m → (nodeBEq a b = true ↔ a = b) := by
    intro m
    induction m with
    | zero =>
      intro a b h
      exfalso
      cases a <;> simp at h
    | succ m ih =>
      intro a b h
      cases a with
      | elem t1 p1 k1 l1 =>
        cases b with
        | elem t2 p2 k2 l2 =>
          simp only [nodeBEq, Bool.and_eq_true, beq_iff_eq, Node.elem.injEq]
          have hlist : nodeListBEq l1 l2 = true ↔ l1 = l2 := by
            refine nodeListBEq_iff_aux l1 l2 (fun x hx y => ih x y ?_)
            have h1 : sizeOf x < sizeOf l1 := List.sizeOf_lt_of_mem hx
            have h2 : sizeOf l1 < sizeOf (Node.elem t1 p1 k1 l1) := by
              simp [Node.elem.sizeOf_spec]
            omega
          rw [hlist]
          tauto
        | text s2 => simp [nodeBEq]
        | num n2 => simp [nodeBEq]
        | undef => simp [nodeBEq]
      | text s1 => cases b <;> simp [nodeBEq]
      | num n1 => cases b <;> simp [nodeBEq]
      | undef => cases b <;> simp [nodeBEq]
  exact key (sizeOf a) a b (Nat.le_refl _)

instance : DecidableEq Node :=
  fun a b => decidable_of_iff (nodeBEq a b = true) (nodeBEq_iff a b)

/-- JS truthiness of a node value. -/
def truthy : Node → Bool
  | .elem _ _ _ _ => true
  | .text s => !(s.isEmpty)
  | .num n => n != 0
  | Node.undef => false

/-- Reads `node.type`: a string for elements, undefined otherwise. -/
def nodeType : Node → Option String
  | .elem t _ _ _ => some t
  | _ => none

/-- Embeds `propsOfNode` from src/src/Utils.js restricted to the
non-children props: `(node && node._store && node._store.props) || {}`. -/
def propsOfNode : Node → List (String × PropVal)
  | .elem _ ps _ _ => ps
  | _ => []

/-- Children-prop kind of a node: only elements carry a children key. -/
def ckindOf : Node → CKind
  | .elem _ _ k _ => k
  | _ => .absent

/-- Children nodes stored under the children prop. -/
def childListOf : Node → List Node
  | .elem _ _ _ l => l
  | _ => []

/-- Embeds `childrenOfNode` from src/src/ShallowTraversal.js: falsy nodes
and nodes without a children prop yield `[]`; otherwise
`React.Children.forEach` yields the single child or the array elements. -/
def childrenOfNode : Node → List Node
  | .elem _ _ k l =>
    match k with
    | .absent => []
    | .single => l
    | .array => l
  | _ => []

theorem sizeOf_lt_of_mem_childrenOfNode {c n : Node} (h : c ∈ childrenOfNode n) :
    sizeOf c < sizeOf n := by
  cases n with
  | elem t ps k l =>
    have hl : c ∈ l := by
      cases k <;> simp [childrenOfNode] at h <;> exact h
    have h1 : sizeOf c < sizeOf l := List.sizeOf_lt_of_mem hl
    simp [Node.elem.sizeOf_spec]
    omega
  | text s => simp [childrenOfNode] at h
  | num n => simp [childrenOfNode] at h
  | undef => simp [childrenOfNode] at h

mutual

/-- Pre-order node list of a tree: embeds `treeForEach` from
src/src/ShallowTraversal.js (visit the node, then recurse into each of its
`childrenOfNode` in order). -/
def preorder : Node → List Node
  | .elem t ps k l =>
    .elem t ps k l :: (match k with | .absent => [] | _ => preorderList l)
  | n => [n]

/-- Concatenated pre-orders of a list of sibling subtrees. -/
def preorderList : List Node → List Node
  | [] => []
  | x :: xs => preorder x ++ preorderList xs

end

theorem preorder_eq (n : Node) :
    preorder n = n :: preorderList (childrenOfNode n) := by
  cases n with
  | elem t ps k l => cases k <;> simp [preorder, childrenOfNode, preorderList]
  | text s => simp [preorder, childrenOfNode, preorderList]
  | num m => simp [preorder, childrenOfNode, preorderList]
  | undef => simp [preorder, childrenOfNode, preorderList]

/-- Embeds `treeFilter` from src/src/ShallowTraversal.js: collects, in the
pre-order of `treeForEach`, the nodes satisfying `fn`. -/
def treeFilter (n : Node) (p : Node → Bool) : List Node :=
  (preorder n).filter p

mutual

/-- Number of nodes of a tree (spec-side count used by the claims). -/
def treeSize : Node → Nat
  | .elem _ _ k l => 1 + (match k with | .absent => 0 | _ => treeSizeList l)
  | _ => 1

/-- Total number of nodes of a list of sibling subtrees. -/
def treeSizeList : List Node → Nat
  | [] => 0
  | x :: xs => treeSize x + treeSizeList xs

end

/-- Characters matched by the JS regex class `\s`. -/
def jsWhitespace (c : Char) : Bool :=
  let n := c.toNat
  n == 32 || n == 9 || n == 10 || n == 11 || n == 12 || n == 13 ||
  n == 0xa0 || n == 0x1680 || (decide (0x2000 ≤ n) && decide (n ≤ 0x200a)) ||
  n == 0x2028 || n == 0x2029 || n == 0x202f || n == 0x205f || n == 0x3000 || n == 0xfeff

/-- Embeds `isSimpleSelector` from src/src/Utils.js: true iff the selector
matches none of `~`, whitespace, `:`, `>`. -/
def isSimpleSelectorL (s : List Char) : Bool :=
  !(s.any fun c => c == '~' || jsWhitespace c || c == ':' || c == '>')

/-- Embeds the regex `isCompoundSelector` from src/src/Utils.js
(`/([a-z]\.[a-z]|[a-z]\[.*\])/i`): some position holds a letter followed by
`.` and a letter, or a letter followed by `[` with a later `]`. -/
def isCompoundSelectorL : List Char → Bool
  | [] => false
  | [_] => false
  | a :: b :: rest =>
    (a.isAlpha && b == '.' && (match rest with | c :: _ => c.isAlpha | [] => false))
    || (a.isAlpha && b == '[' && rest.contains ']')
    || isCompoundSelectorL (b :: rest)

/-- Embeds `splitSelector` from src/src/Utils.js
(`selector.split(/(?=\.|\[.*\])/)`): split before every `.`, and before
every `[` that has a later `]`; a zero-width match at position 0 does not
split, so a split only happens when the current fragment is non-empty. -/
def splitSelGo (cur : List Char) : List Char → List (List Char)
  | [] => [cur.reverse]
  | c :: rest =>
    if (c == '.' || (c == '[' && rest.contains ']')) && !cur.isEmpty then
      cur.reverse :: splitSelGo [c] rest
    else
      splitSelGo (c :: cur) rest

/-- Selector split entry point. -/
def splitSelectorL (s : List Char) : List (List Char) := splitSelGo [] s

/-- Boolean test that `pat` is an initial segment of the second list. -/
def startsWithL : List Char → List Char → Bool
  | [], _ => true
  | _ :: _, [] => false
  | a :: as, b :: bs => a == b && startsWithL as bs

/-- Boolean test that `pat` occurs as a contiguous segment (JS
`indexOf(pat) > -1`). -/
def containsSeg (pat : List Char) : List Char → Bool
  | [] => pat.isEmpty
  | c :: t => startsWithL pat (c :: t) || containsSeg pat t

/-- Lookup of a prop value by key in a props map. -/
def lookupProp (k : String) : List (String × PropVal) → Option PropVal
  | [] => none
  | (k2, v) :: rest => if k2 == k then some v else lookupProp k rest

/-- Embeds the expression `node && node._store && node._store.props &&
node._store.props.className || ''` from `hasClassName`, including the JS
string coercion performed by the later `' ' + classes + ' '`. -/
def classesOf (node : Node) : String :=
  match lookupProp "className" (propsOfNode node) with
  | some (.str s) => s
  | some (.int n) => if n == 0 then "" else toString n
  | some (.bool b) => if b then "true" else ""
  | none => ""

/-- Embeds `hasClassName` from src/src/ShallowTraversal.js:
`(' ' + classes + ' ').indexOf(' ' + className + ' ') > -1`. -/
def hasClassName (node : Node) (className : String) : Bool :=
  containsSeg (' ' :: (className.data ++ [' '])) (' ' :: ((classesOf node).data ++ [' ']))

/-- Embeds `nodeHasId` from src/src/ShallowTraversal.js
(`maybeId === id` where `id` comes from a selector, hence is a string). -/
def nodeHasId (node : Node) (id : String) : Bool :=
  match lookupProp "id" (propsOfNode node) with
  | some (.str s) => s == id
  | _ => false

/-- Embeds `nodeHasType` from src/src/ShallowTraversal.js for string-typed
nodes (component-constructor types are not part of this model). -/
def nodeHasType (node : Node) (t : String) : Bool :=
  if t == "" then false
  else
    match node with
    | .elem nt _ _ _ => if nt == "" then false else nt == t
    | _ => false

/-- Embeds the message of `selectorError` from src/src/Utils.js. -/
def selectorErrorMsg (s : String) : String :=
  "Enzyme received a complex CSS selector (\x27" ++ s ++
    "\x27) that it does not currently support"

/-- Embeds the loop body of `AND` from src/src/Utils.js applied to the
reversed predicate list: return false on the first failing predicate. -/
def andGo (x : Node) : List (Node → Bool) → Bool
  | [] => true
  | f :: rest => if f x then andGo x rest else false

/-- Embeds `AND` from src/src/Utils.js: `let i = fns.length; while (i--)`
evaluates the predicates from the last to the first. -/
def AND (fns : List (Node → Bool)) : Node → Bool :=
  fun x => andGo x fns.reverse

/-- Embeds the string case of `buildPredicate` from
src/src/ShallowTraversal.js. The fuel bounds the recursion into
compound-selector fragments (every fragment produced by `splitSelector` on
a compound selector is strictly shorter, so `length + 1` fuel is never
exhausted); errors carry the thrown `TypeError` messages. -/
def buildPredicateGo : Nat → List Char → Except String (Node → Bool)
  | 0, _ => .error "out of fuel"
  | fuel + 1, s =>
    if !(isSimpleSelectorL s) then .error (selectorErrorMsg (String.mk s))
    else if isCompoundSelectorL s then
      ((splitSelectorL s).mapM (buildPredicateGo fuel)).map AND
    else if s.head? == some '.' then .ok (fun n => hasClassName n (String.mk (s.drop 1)))
    else if s.head? == some '#' then .ok (fun n => nodeHasId n (String.mk (s.drop 1)))
    else .ok (fun n => nodeHasType n (String.mk s))

/-- String-level entry point for `buildPredicate`. -/
def buildPredicate (s : String) : Except String (Node → Bool) :=
  buildPredicateGo (s.length + 1) s.data

/-- Embeds `pathToNode` from src/src/ShallowTraversal.js. The JS loop uses
an array as a stack (`pop` and `push` at the end); the list argument here
is that array reversed, so its head is the next node popped. The measure
`sum of treeSize over the stack` drops by one each iteration, so
`treeSize root + 1` fuel is never exhausted. -/
def pathToNodeGo (target : Node) : Nat → List Node → List Node → Option (List Node)
  | 0, _, _ => none
  | _ + 1, [], _ => none
  | fuel + 1, current :: queue, path =>
    let children := childrenOfNode current
    if nodeBEq current target then some path
    else
      let path2 := path ++ [current]
      let path3 := if children.isEmpty then path2.dropLast else path2
      pathToNodeGo target fuel (children.reverse ++ queue) path3

/-- Entry point of `pathToNode(node, root)`. -/
def pathToNode (target root : Node) : Option (List Node) :=
  pathToNodeGo target (treeSize root + 1) [root] []

/-- Embeds `parentsOfNode` from src/src/ShallowTraversal.js:
`pathToNode(node, root).reverse()` (the JS crash on a null path for an
unreachable node is modelled by the empty list). -/
def parentsOfNode (node root : Node) : List Node :=
  ((pathToNode node root).getD []).reverse

/-- Argument shape accepted by the `ShallowWrapper` constructor: an array
of nodes or a single (non-array) value. -/
inductive NodesArg where
  | one (n : Node)
  | arr (ns : List Node)

/-- Model of a `ShallowWrapper` collection: its node list and whether it is
the root wrapper (in the source, `this.root === this`). The render backend
that produces the root node is external. -/
structure SW where
  nodes : List Node
  isRoot : Bool
deriving DecidableEq

/-- Embeds the non-root branch of the `ShallowWrapper` constructor: a
non-array argument (including undefined) becomes a one-element node list,
an array is stored as is; `length` is the node-list length. -/
def mkSW : NodesArg → SW
  | .one n => ⟨[n], false⟩
  | .arr ns => ⟨ns, false⟩

/-- Wrapper around a freshly rendered root node. -/
def rootSW (n : Node) : SW := ⟨[n], true⟩

/-- Embeds `this.length`. -/
def SW.length (w : SW) : Nat := w.nodes.length

/-- Embeds `this.node` (`nodes[0]`). -/
def SW.node (w : SW) : Node := w.nodes.headD Node.undef

/-- Embeds the message thrown by `ShallowWrapper::single`. -/
def singleMsg (n : Nat) : String :=
  "This method is only meant to be run on single node. " ++ toString n ++ " found instead."

/-- Embeds `ShallowWrapper::single`: fails unless the wrapper holds exactly
one node, else applies `fn` to `this.node`. -/
def singleOp {α : Type} (w : SW) (fn : Node → α) : Except String α :=
  if w.nodes.length == 1 then .ok (fn w.node)
  else .error (singleMsg w.nodes.length)

/-- Embeds underscore `compact`: removes falsy values. -/
def compact (l : List Node) : List Node := l.filter truthy

/-- Embeds `ShallowWrapper::filterWhere`:
`wrap(compact(this.nodes.filter(predicate)))`. -/
def filterWhere (w : SW) (p : Node → Bool) : SW :=
  mkSW (.arr (compact (w.nodes.filter p)))

/-- Embeds `ShallowWrapper::filter`. -/
def filterSel (w : SW) (sel : String) : Except String SW :=
  (buildPredicate sel).map (fun p => filterWhere w p)

/-- Embeds `ShallowWrapper::not`. -/
def notSel (w : SW) (sel : String) : Except String SW :=
  (buildPredicate sel).map (fun p => filterWhere w (fun n => !(p n)))

/-- Embeds underscore `unique` (deduplication keeping first occurrences,
with JS `===` modelled structurally). -/
def uniqueGo (seen : List Node) : List Node → List Node
  | [] => []
  | x :: xs => if seen.contains x then uniqueGo seen xs else x :: uniqueGo (x :: seen) xs

/-- Deduplication entry point. -/
def uniqueFirst (l : List Node) : List Node := uniqueGo [] l

/-- Embeds `ShallowWrapper::flatMap` for functions producing node lists:
map over the nodes, shallow-flatten, deduplicate, wrap. -/
def flatMapSW (w : SW) (f : Node → List Node) : SW :=
  mkSW (.arr (uniqueFirst (w.nodes.map f).flatten))

/-- Embeds `ShallowWrapper::findWhere`:
`this.flatMap(n => treeFilter(n.node, predicate))`. -/
def findWhere (w : SW) (p : Node → Bool) : SW :=
  flatMapSW w (fun n => treeFilter n p)

/-- JS array indexing `nodes[index]`, where an out-of-range or negative
index yields undefined. -/
def jsIndex (l : List Node) (i : Int) : Node :=
  if h : 0 ≤ i ∧ i.toNat < l.length then l.get ⟨i.toNat, h.2⟩ else Node.undef

/-- Embeds `ShallowWrapper::wrap` for a plain node argument. -/
def wrapOne (n : Node) : SW := mkSW (.one n)

/-- Embeds `ShallowWrapper::get`: `this.wrap(this.nodes[index])`. -/
def getIdx (w : SW) (i : Int) : SW := wrapOne (jsIndex w.nodes i)

/-- Embeds `ShallowWrapper::first`: `this.get(0)`. -/
def firstW (w : SW) : SW := getIdx w 0

/-- Embeds `ShallowWrapper::last`: `this.get(this.length - 1)`. -/
def lastW (w : SW) : SW := getIdx w ((w.nodes.length : Int) - 1)

/-- Embeds `ShallowWrapper::is`: `this.single(buildPredicate(selector))`. -/
def isSel (w : SW) (sel : String) : Except String Bool := do
  let p ← buildPredicate sel
  singleOp w p

/-- Embeds `ShallowWrapper::parents` without the optional selector:
`this.wrap(this.single(n => parentsOfNode(n, this.root.node)))`. -/
def parentsW (w : SW) (rootNode : Node) : Except String SW :=
  (singleOp w (fun n => parentsOfNode n rootNode)).map (fun l => mkSW (.arr l))

/-- Embeds `ShallowWrapper::closest`:
`this.is(selector) ? this : this.parents().filter(selector).first()`. -/
def closest (w : SW) (sel : String) (rootNode : Node) : Except String SW := do
  let b ← isSel w sel
  if b then pure w
  else do
    let ps ← parentsW w rootNode
    let f ← filterSel ps sel
    pure (firstW f)

/-- Embeds `ShallowWrapper::setProps` as a state transformer. The render
backend is external, so the re-rendered output node is a parameter; the
pair holds the call result and the wrapper state after the call. -/
def setPropsOp (w : SW) (rendered : Node) : Except String Unit × SW :=
  if !w.isRoot then
    (.error "ShallowWrapper::setProps() can only be called on the root", w)
  else if w.nodes.length == 1 then (.ok (), { w with nodes := [rendered] })
  else (.error (singleMsg w.nodes.length), w)

/-- Embeds `ShallowWrapper::setState` as a state transformer; the instance
state merge and re-render are external, so the new output node is a
parameter. -/
def setStateOp (w : SW) (rendered : Node) : Except String Unit × SW :=
  if !w.isRoot then
    (.error "ShallowWrapper::setState() can only be called on the root", w)
  else if w.nodes.length == 1 then (.ok (), { w with nodes := [rendered] })
  else (.error (singleMsg w.nodes.length), w)

/-- Embeds `ShallowWrapper::state()` without the optional name argument;
the component instance state is external, so it is a parameter. -/
def stateOp (w : SW) (instState : List (String × PropVal)) :
    Except String (List (String × PropVal)) × SW :=
  if !w.isRoot then
    (.error "ShallowWrapper::state() can only be called on the root", w)
  else if w.nodes.length == 1 then (.ok instState, w)
  else (.error (singleMsg w.nodes.length), w)

/-- JS `.length` of a children value: a number for arrays, undefined
otherwise (string children are compared as atomic values in this model). -/
def jsChildLen : CKind → List Node → Option Nat
  | .array, l => some l.length
  | _, _ => none

/-- View of a non-array children value as a single node value (undefined
when the children key is absent). -/
def asChildNode : CKind → List Node → Node
  | .single, l => l.headD Node.undef
  | _, _ => Node.undef

/-- JS truthiness of a children value. -/
def childTruthy : CKind → List Node → Bool
  | .absent, _ => false
  | .single, l => truthy (l.headD Node.undef)
  | .array, _ => true

/-- Left-to-right prop comparison of `nodeEqual`: every key of the left
props map must be present in the right map with a `===`-equal value. -/
def propsLeftIncl (pa pb : List (String × PropVal)) : Bool :=
  pa.all fun kv =>
    match lookupProp kv.1 pb with
    | some w => kv.2 == w
    | none => false

/-- Number of keys of a JS props object in this model: the non-children
props plus the children key when present. -/
def keyCount (ps : List (String × PropVal)) (k : CKind) : Nat :=
  ps.length + (match k with | .absent => 0 | _ => 1)

theorem sizeOf_asChildNode_le (k : CKind) (l : List Node) :
    sizeOf (asChildNode k l) ≤ sizeOf l := by
  cases k <;> cases l <;> simp [asChildNode] <;> omega

mutual

/-- Embeds `nodeEqual` from src/src/Utils.js: reference equality shortcut,
falsy guard, type comparison, then left-key inclusion with `===` values,
the children prop via the inlined `childrenEqual` comparison, and
equality of key counts. The `childrenEqual` steps are inlined here (the
non-array case matches on the single-child values instead of going
through `asChildNode`, with `nodeEqual x undefined` computed as its value
`nodeBEq x undefined`) so that the recursion is structural; the standalone
`childrenEqual` below is proved to agree with this inlining. -/
def nodeEqual (a b : Node) : Bool :=
  if nodeBEq a b then true
  else
    match a, b with
    | .elem t1 p1 k1 l1, .elem t2 p2 k2 l2 =>
      if t1 != t2 then false
      else
        (propsLeftIncl p1 p2 &&
          (match k1 with
           | .absent => true
           | _ =>
             match k2 with
             | .absent => false
             | _ =>
               if k1 == k2 && nodeListBEq l1 l2 then true
               else if k1 != .array && k2 != .array then
                 (match l1, l2 with
                  | x :: _, y :: _ => nodeEqual x y
                  | x :: _, [] => nodeBEq x Node.undef
                  | [], y :: _ => nodeBEq Node.undef y
                  | [], [] => true)
               else if !(childTruthy k1 l1) && !(childTruthy k2 l2) then true
               else if jsChildLen k1 l1 != jsChildLen k2 l2 then false
               else listNodeEqual l1 l2)) &&
        (keyCount p1 k1 == keyCount p2 k2)
    | .elem _ _ _ _, _ => false
    | _, .elem _ _ _ _ => false
    | _, _ => truthy a && truthy b

/-- Pairwise `nodeEqual` over two child arrays of equal length (the loop
of `childrenEqual`). -/
def listNodeEqual : List Node → List Node → Bool
  | [], [] => true
  | x :: xs, y :: ys => nodeEqual x y && listNodeEqual xs ys
  | _, _ => false

end

/-- Named form of the children comparison inlined in `nodeEqual`; for
children keys that are present on both sides it agrees with
`childrenEqual` below. -/
def childrenCmpInline (k1 : CKind) (l1 : List Node) (k2 : CKind) (l2 : List Node) : Bool :=
  if k1 == k2 && nodeListBEq l1 l2 then true
  else if k1 != .array && k2 != .array then
    (match l1, l2 with
     | x :: _, y :: _ => nodeEqual x y
     | x :: _, [] => nodeBEq x Node.undef
     | [], y :: _ => nodeBEq Node.undef y
     | [], [] => true)
  else if !(childTruthy k1 l1) && !(childTruthy k2 l2) then true
  else if jsChildLen k1 l1 != jsChildLen k2 l2 then false
  else listNodeEqual l1 l2

/-- Embeds `childrenEqual` from src/src/Utils.js on children values:
reference shortcut, both-non-array case via `nodeEqual`, the (dead)
both-falsy case, the length comparison, and the pairwise loop. -/
def childrenEqual (ka : CKind) (la : List Node) (kb : CKind) (lb : List Node) : Bool :=
  if ka == kb && nodeListBEq la lb then true
  else if ka != .array && kb != .array then
    nodeEqual (asChildNode ka la) (asChildNode kb lb)
  else if !(childTruthy ka la) && !(childTruthy kb lb) then true
  else if jsChildLen ka la != jsChildLen kb lb then false
  else listNodeEqual la lb

/-- Nodup check on the keys of a props map (a JS object cannot have two
identical keys). -/
def propsKeysNodup : List (String × PropVal) → Bool
  | [] => true
  | (k, _) :: rest => !(rest.any fun kv => kv.1 == k) && propsKeysNodup rest

mutual

/-- Well-formedness of a node as an image of a real React element: all
props maps in the tree have duplicate-free keys. -/
def nodeWF : Node → Bool
  | .elem _ ps _ l => propsKeysNodup ps && nodeListWF l
  | _ => true

/-- Well-formedness of every node of a list. -/
def nodeListWF : List Node → Bool
  | [] => true
  | x :: xs => nodeWF x && nodeListWF xs

end

theorem length_dropWhile_le_gen (p : Char → Bool) (l : List Char) :
    (l.dropWhile p).length ≤ l.length := by
  induction l with
  | nil => simp
  | cons c rest ih =>
    by_cases h : p c
    · simp only [List.dropWhile_cons, h, if_true, List.length_cons]
      omega
    · simp [List.dropWhile_cons, h]

/-- Space-delimited tokens of a class string (the spec side of the
class-membership rule). -/
def tokens : List Char → List (List Char)
  | [] => []
  | c :: rest =>
    if c == ' ' then tokens rest
    else
      ((c :: rest).takeWhile (fun x => x != ' ')) ::
        tokens ((c :: rest).dropWhile (fun x => x != ' '))
termination_by l => l.length
decreasing_by
  · simp
  · simp_all [List.dropWhile_cons]
    have h1 := length_dropWhile_le_gen (fun x => x != ' ') rest
    omega

/-- Example target node: a leaf span. -/
def nT : Node := .elem "span" [] .absent []

/-- Example leaf in the subtree that does not contain the target. -/
def nX : Node := .elem "p" [] .absent []

/-- Example internal node with class bar; not an ancestor of `nT`. -/
def nA : Node := .elem "div" [("className", .str "bar")] .single [nX]

/-- Example parent of the target, with class foo. -/
def nB : Node := .elem "div" [("className", .str "foo")] .single [nT]

/-- Example root: children ordered so that the subtree of `nA` is explored
and exhausted before `nB`. -/
def nRootEx : Node := .elem "div" [("className", .str "bax")] .array [nB, nA]

/-- Single-node wrapper around the example target. -/
def c4W : SW := ⟨[nT], false⟩

/-- Example tree `<div>{0}</div>` whose only child is the falsy text
value 0. -/
def c2Tree : Node := .elem "div" [] .single [.num 0]

/-- Wrapper collection produced by `findWhere(() => true)` on the example
tree; it contains the root element and the falsy child. -/
def c2C : SW := findWhere (rootSW c2Tree) (fun _ => true)

/-- Example three-node tree with pairwise distinct nodes. -/
def c6T : Node :=
  .elem "div" [] .array
    [.elem "span" [("className", .str "a")] .absent [],
     .elem "span" [("className", .str "b")] .absent []]

/-- Example node whose children prop is a single child. -/
def c5a : Node := .elem "div" [("id", .str "x")] .single [.text "hi"]

/-- Example node whose children prop is a one-element list of children. -/
def c5b : Node := .elem "div" [("id", .str "x")] .array [.text "hi"]

/-- Example node with a two-token class string. -/
def c7N : Node := .elem "div" [("className", .str "foo bar")] .absent []

/-- Example compound selector. -/
def c8Sel : String := "div.foo"

/-- Fragment predicates computed by the compound branch of
`buildPredicate` on the example selector. -/
def c8ps : List (Node → Bool) :=
  ((splitSelectorL c8Sel.data).mapM (buildPredicateGo c8Sel.data.length)).toOption.getD []

/-- Compiled predicate of the example compound selector. -/
def c8p : Node → Bool :=
  (buildPredicate c8Sel).toOption.getD (fun _ => false)

/-- Example node matching both fragments of the example selector. -/
def c8N : Node := .elem "div" [("className", .str "foo")] .absent []

/-- Example empty wrapper collection. -/
def c10W : SW := ⟨[], false⟩

/-- Compiled predicate of the class selector used in witnesses. -/
def c2p : Node → Bool :=
  (buildPredicate ".foo").toOption.getD (fun _ => false)

theorem buildPredicateGo_succ (fuel : Nat) (s : List Char) :
    buildPredicateGo (fuel + 1) s =
      (if !(isSimpleSelectorL s) then .error (selectorErrorMsg (String.mk s))
      else if isCompoundSelectorL s then
        ((splitSelectorL s).mapM (buildPredicateGo fuel)).map AND
      else if s.head? == some '.' then .ok (fun n => hasClassName n (String.mk (s.drop 1)))
      else if s.head? == some '#' then .ok (fun n => nodeHasId n (String.mk (s.drop 1)))
      else .ok (fun n => nodeHasType n (String.mk s))) := rfl

theorem buildPredicateGo_compound (fuel : Nat) (s : List Char)
    (hs : isSimpleSelectorL s = true) (hc : isCompoundSelectorL s = true) :
    buildPredicateGo (fuel + 1) s =
      ((splitSelectorL s).mapM (buildPredicateGo fuel)).map AND := by
  rw [buildPredicateGo_succ, hs, hc]
  rw [if_neg (by simp)]
  rw [if_pos rfl]

theorem andGo_eq_all (x : Node) (l : List (Node → Bool)) :
    andGo x l = l.all (fun f => f x) := by
  induction l with
  | nil => rfl
  | cons f rest ih => by_cases h : f x <;> simp [andGo, h, ih]

theorem AND_eq_all (fns : List (Node → Bool)) (x : Node) :
    AND fns x = fns.all (fun f => f x) := by
  simp [AND, andGo_eq_all]

theorem length_filter_compl (p : Node → Bool) (l : List Node) :
    (l.filter p).length + (l.filter (fun n => !(p n))).length = l.length := by
  induction l with
  | nil => rfl
  | cons x xs ih => by_cases h : p x <;> simp [List.filter_cons, h] <;> omega

theorem compact_of_truthy (l : List Node) (h : ∀ n ∈ l, truthy n = true) :
    compact l = l := by
  simp only [compact]
  exact List.filter_eq_self.mpr h

mutual

theorem preorder_length : ∀ n : Node, (preorder n).length = treeSize n
  | .elem t ps k l => by
    cases k <;> simp [preorder, treeSize, preorderList_length l, Nat.add_comm]
  | .text s => by simp [preorder, treeSize]
  | .num m => by simp [preorder, treeSize]
  | Node.undef => by simp [preorder, treeSize]

theorem preorderList_length : ∀ l : List Node, (preorderList l).length = treeSizeList l
  | [] => by simp [preorderList, treeSizeList]
  | x :: xs => by
    simp [preorderList, treeSizeList, preorder_length x, preorderList_length xs]

end

theorem uniqueGo_eq_of_nodup :
    ∀ (l seen : List Node), l.Nodup → (∀ a ∈ l, a ∉ seen) → uniqueGo seen l = l := by
  intro l
  induction l with
  | nil => intro seen _ _; rfl
  | cons x xs ih =>
    intro seen hnd hdis
    have hx : x ∉ seen := hdis x (by simp)
    have hc : seen.contains x = false := by
      simp only [List.contains, List.elem_eq_mem, decide_eq_false_iff_not]
      exact hx
    simp only [uniqueGo, hc, Bool.false_eq_true, if_false]
    have hnd2 : xs.Nodup := (List.nodup_cons.mp hnd).2
    have hx2 : x ∉ xs := (List.nodup_cons.mp hnd).1
    have hdis2 : ∀ a ∈ xs, a ∉ (x :: seen) := by
      intro a ha
      simp only [List.mem_cons]
      push_neg
      constructor
      · intro hax; exact hx2 (hax ▸ ha)
      · exact hdis a (by simp [ha])
    rw [ih (x :: seen) hnd2 hdis2]

theorem uniqueFirst_eq_of_nodup (l : List Node) (h : l.Nodup) : uniqueFirst l = l :=
  uniqueGo_eq_of_nodup l [] h (by simp)

/-- Claim C1: the specification states that `pathToNode(target, root)`
returns exactly the ancestors of the target, containing no non-ancestor.
Evaluating the embedded `pathToNode` at the concrete tree `nRootEx` (root
with children `[nB, nA]` and the target `nT` under `nB`) returns
`[nRootEx, nA, nB]`, which contains `nA` even though the target does not
lie in the subtree of `nA` (so `nA` is not an ancestor of the target):
an internal node whose subtree is exhausted is never popped from the
working path, only leaves are. -/
theorem c1_pathToNode_returns_non_ancestor :
    pathToNode nT nRootEx = some [nRootEx, nA, nB] ∧
    (preorder nA).contains nT = false ∧ nA ≠ nB ∧ nA ≠ nRootEx :=
  ⟨rfl, rfl, by decide, by decide⟩

/-- Claim C3 counterexample: the claim states that an attribute-bracket
selector such as `[attr]` makes `buildPredicate` throw a `TypeError`, but
the embedded `buildPredicate` compiles `"[attr]"` successfully (it falls
through to tag-name matching). -/
theorem c3_bracket_selector_does_not_throw :
    (buildPredicate "[attr]").isOk = true := rfl

/-- Claim C3 (amended): compiling any string selector containing
whitespace, `:`, `>`, or `~` throws a `TypeError` identifying the
offending selector; attribute-bracket selectors do not throw. -/
theorem c3_complex_selector_throws (s : String)
    (h : s.data.any (fun c => c == '~' || jsWhitespace c || c == ':' || c == '>') = true) :
    buildPredicate s = .error (selectorErrorMsg s) := by
  have h2 : isSimpleSelectorL s.data = false := by
    simp [isSimpleSelectorL, h]
  simp [buildPredicate, buildPredicateGo, h2]

/-- Witness for the amended claim C3 at the selector `"a b"`. -/
theorem c3_complex_selector_throws_witness :
    buildPredicate "a b" = .error (selectorErrorMsg "a b") :=
  c3_complex_selector_throws "a b" (by decide)

/-- Claim C4: the specification states that on a non-self-match,
`closest` returns the nearest matching ancestor. Evaluating the embedded
`closest` on the single-node wrapper around the target `nT` with selector
`".bar"` returns a wrapper around `nA`, although `nA` is not an ancestor
of `nT` (the target is not in its subtree): `closest` inherits the
non-ancestor nodes that `pathToNode` leaves on the path. -/
theorem c4_closest_returns_non_ancestor :
    closest c4W ".bar" nRootEx = .ok ⟨[nA], false⟩ ∧
    (preorder nA).contains nT = false ∧ nA ≠ nB ∧ nA ≠ nRootEx :=
  ⟨rfl, rfl, by decide, by decide⟩

/-- Claim C9: calling `setState`, `setProps`, or `state()` on a non-root
wrapper raises the root-only error, and the wrapper state after the
failed call is unchanged. -/
theorem c9_root_only_enforcement (w : SW) (nn1 nn2 : Node)
    (st : List (String × PropVal)) (h : w.isRoot = false) :
    setPropsOp w nn1 =
      (.error "ShallowWrapper::setProps() can only be called on the root", w) ∧
    setStateOp w nn2 =
      (.error "ShallowWrapper::setState() can only be called on the root", w) ∧
    stateOp w st =
      (.error "ShallowWrapper::state() can only be called on the root", w) := by
  simp [setPropsOp, setStateOp, stateOp, h]

/-- Witness for claim C9 at a concrete non-root wrapper. -/
theorem c9_root_only_enforcement_witness :
    setPropsOp c4W Node.undef =
      (.error "ShallowWrapper::setProps() can only be called on the root", c4W) ∧
    setStateOp c4W Node.undef =
      (.error "ShallowWrapper::setState() can only be called on the root", c4W) ∧
    stateOp c4W [] =
      (.error "ShallowWrapper::state() can only be called on the root", c4W) :=
  c9_root_only_enforcement c4W Node.undef Node.undef [] rfl

/-- Claim C10: on an empty wrapper, `first()` and `last()` raise no error
and return a one-node wrapper around the undefined value, and `get(i)`
behaves the same way on every out-of-range index of any wrapper, because
the constructor wraps a non-array argument (including undefined) as a
one-element node list. -/
theorem c10_empty_first_last_get :
    (∀ w : SW, w.length = 0 →
      firstW w = ⟨[Node.undef], false⟩ ∧ lastW w = ⟨[Node.undef], false⟩ ∧
      (firstW w).length = 1 ∧ (lastW w).length = 1) ∧
    (∀ (w : SW) (i : Int), i < 0 ∨ (w.length : Int) ≤ i →
      getIdx w i = ⟨[Node.undef], false⟩) := by
  have hget : ∀ (w : SW) (i : Int), i < 0 ∨ (w.length : Int) ≤ i →
      getIdx w i = ⟨[Node.undef], false⟩ := by
    intro w i hi
    have hcond : ¬(0 ≤ i ∧ i.toNat < w.nodes.length) := by
      simp only [SW.length] at hi
      omega
    simp [getIdx, jsIndex, hcond, wrapOne, mkSW]
  refine ⟨fun w hw => ?_, hget⟩
  have h0 : w.nodes = [] := List.length_eq_zero.mp hw
  have e1 : firstW w = ⟨[Node.undef], false⟩ := hget w 0 (by right; simp [hw])
  have e2 : lastW w = ⟨[Node.undef], false⟩ :=
    hget w ((w.nodes.length : Int) - 1) (by left; simp [h0])
  refine ⟨e1, e2, ?_, ?_⟩
  · rw [e1]; rfl
  · rw [e2]; rfl

/-- Witness for claim C10 at the concrete empty wrapper and an
out-of-range index. -/
theorem c10_empty_first_last_get_witness :
    (firstW c10W = ⟨[Node.undef], false⟩ ∧ lastW c10W = ⟨[Node.undef], false⟩ ∧
      (firstW c10W).length = 1 ∧ (lastW c10W).length = 1) ∧
    getIdx c10W 5 = ⟨[Node.undef], false⟩ :=
  ⟨c10_empty_first_last_get.1 c10W rfl,
   c10_empty_first_last_get.2 c10W 5 (by decide)⟩

/-- Claim C2 counterexample: on the wrapper collection obtained by
`findWhere(() => true)` over the tree `<div>{0}</div>` (which contains
the falsy text child 0) and the valid selector `".foo"`, the lengths of
`filter` and `not` sum to 1 while the collection length is 2: `compact`
inside `filterWhere` silently drops the falsy node from the `not` side. -/
theorem c2_complement_fails_on_falsy_node :
    filterSel c2C ".foo" = .ok ⟨[], false⟩ ∧
    notSel c2C ".foo" = .ok ⟨[c2Tree], false⟩ ∧
    SW.length ⟨[], false⟩ + SW.length ⟨[c2Tree], false⟩ ≠ c2C.length :=
  ⟨rfl, rfl, by decide⟩

/-- Claim C2 (amended): for every wrapper collection all of whose nodes
are truthy and every selector accepted by `buildPredicate`, the length of
`filter(sel)` plus the length of `not(sel)` equals the collection
length. -/
theorem c2_filter_not_complement (w : SW) (sel : String) (p : Node → Bool)
    (hok : buildPredicate sel = .ok p)
    (ht : ∀ n ∈ w.nodes, truthy n = true) :
    ∃ f nf, filterSel w sel = .ok f ∧ notSel w sel = .ok nf ∧
      f.length + nf.length = w.length := by
  refine ⟨filterWhere w p, filterWhere w (fun n => !(p n)), ?_, ?_, ?_⟩
  · simp [filterSel, hok, Except.map]
  · simp [notSel, hok, Except.map]
  · have h1 : compact (w.nodes.filter p) = w.nodes.filter p :=
      compact_of_truthy _ (fun n hn => ht n (List.mem_of_mem_filter hn))
    have h2 : compact (w.nodes.filter (fun n => !(p n))) =
        w.nodes.filter (fun n => !(p n)) :=
      compact_of_truthy _ (fun n hn => ht n (List.mem_of_mem_filter hn))
    simp only [filterWhere, mkSW, SW.length, h1, h2]
    exact length_filter_compl p w.nodes

/-- Witness for the amended claim C2 at a concrete truthy collection. -/
theorem c2_filter_not_complement_witness :
    ∃ f nf, filterSel (rootSW c6T) ".foo" = .ok f ∧
      notSel (rootSW c6T) ".foo" = .ok nf ∧
      f.length + nf.length = (rootSW c6T).length :=
  c2_filter_not_complement (rootSW c6T) ".foo" c2p rfl (by decide)

/-- Claim C8: for a compound simple selector, the compiled predicate is
the reverse-order short-circuit AND of the fragment predicates, and its
value on every node equals the plain conjunction of all fragment
predicates on that node. -/
theorem c8_compound_is_conjunction (s : String) (p : Node → Bool)
    (ps : List (Node → Bool)) (n : Node)
    (hs : isSimpleSelectorL s.data = true)
    (hc : isCompoundSelectorL s.data = true)
    (hfrag : (splitSelectorL s.data).mapM (buildPredicateGo s.data.length) = .ok ps)
    (hok : buildPredicate s = .ok p) :
    p n = ps.all (fun f => f n) := by
  have hb : buildPredicate s = .ok (AND ps) := by
    have h0 : buildPredicate s = buildPredicateGo (s.data.length + 1) s.data := rfl
    rw [h0, buildPredicateGo_compound s.data.length s.data hs hc, hfrag]
    rfl
  rw [hok] at hb
  have hp : p = AND ps := by simpa using hb
  rw [hp]
  exact AND_eq_all ps n

/-- Witness for claim C8 at the compound selector `"div.foo"` and a
matching node. -/
theorem c8_compound_is_conjunction_witness :
    c8p c8N = c8ps.all (fun f => f c8N) :=
  c8_compound_is_conjunction c8Sel c8p c8ps c8N (by decide) (by decide) rfl rfl

theorem startsWithL_iff : ∀ (p l : List Char), startsWithL p l = true ↔ ∃ v, l = p ++ v := by
  intro p
  induction p with
  | nil => intro l; simp [startsWithL]
  | cons a as ih =>
    intro l
    cases l with
    | nil => simp [startsWithL]
    | cons b bs =>
      simp only [startsWithL, Bool.and_eq_true, beq_iff_eq, ih bs]
      constructor
      · rintro ⟨hab, v, hv⟩
        exact ⟨v, by simp [hab, hv]⟩
      · rintro ⟨v, hv⟩
        simp only [List.cons_append, List.cons.injEq] at hv
        exact ⟨hv.1.symm, v, hv.2⟩

theorem containsSeg_iff : ∀ (p l : List Char),
    containsSeg p l = true ↔ ∃ u v, l = u ++ p ++ v := by
  intro p l
  induction l with
  | nil =>
    simp only [containsSeg, List.isEmpty_iff]
    constructor
    · intro h; exact ⟨[], [], by simp [h]⟩
    · rintro ⟨u, v, huv⟩
      have := huv.symm
      simp only [List.append_eq_nil] at this
      exact this.1.2
  | cons c t ih =>
    simp only [containsSeg, Bool.or_eq_true, startsWithL_iff, ih]
    constructor
    · rintro (⟨v, hv⟩ | ⟨u, v, huv⟩)
      · exact ⟨[], v, by simp [hv]⟩
      · exact ⟨c :: u, v, by simp [huv]⟩
    · rintro ⟨u, v, huv⟩
      cases u with
      | nil => exact Or.inl ⟨v, by simpa using huv⟩
      | cons x u2 =>
        simp only [List.cons_append, List.cons.injEq] at huv
        exact Or.inr ⟨u2, v, huv.2⟩

theorem tokens_cons_sp (l : List Char) : tokens (' ' :: l) = tokens l := by
  simp [tokens]

theorem tokens_cons_ne (x : Char) (l : List Char) (hx : (x == ' ') = false) :
    tokens (x :: l) =
      (x :: l.takeWhile (fun y => y != ' ')) ::
        tokens (l.dropWhile (fun y => y != ' ')) := by
  rw [tokens]
  simp [hx, List.takeWhile_cons, List.dropWhile_cons, bne]

theorem takeWhile_dropWhile_all_ne :
    ∀ (u w : List Char), (∀ y ∈ u, (y != ' ') = true) →
      (u ++ ' ' :: w).takeWhile (fun y => y != ' ') = u ∧
      (u ++ ' ' :: w).dropWhile (fun y => y != ' ') = ' ' :: w := by
  intro u
  induction u with
  | nil => intro w _; simp [List.takeWhile_cons, List.dropWhile_cons]
  | cons y u2 ih =>
    intro w hall
    have hy : (y != ' ') = true := hall y (by simp)
    have ih2 := ih w (fun z hz => hall z (by simp [hz]))
    simp only [List.cons_append, List.takeWhile_cons, List.dropWhile_cons, hy]
    simp [ih2.1, ih2.2]

theorem takeWhile_dropWhile_of_all :
    ∀ (u : List Char), (∀ y ∈ u, (y != ' ') = true) →
      u.takeWhile (fun y => y != ' ') = u ∧ u.dropWhile (fun y => y != ' ') = [] := by
  intro u
  induction u with
  | nil => intro _; simp
  | cons y u2 ih =>
    intro hall
    have hy : (y != ' ') = true := hall y (by simp)
    have ih2 := ih (fun z hz => hall z (by simp [hz]))
    simp only [List.takeWhile_cons, List.dropWhile_cons, hy]
    simp [ih2.1, ih2.2]

theorem dropWhile_sp_shape (l : List Char) :
    l.dropWhile (fun y => y != ' ') = [] ∨
      ∃ q, l.dropWhile (fun y => y != ' ') = ' ' :: q := by
  induction l with
  | nil => left; rfl
  | cons c rest ih =>
    by_cases hc : c = ' '
    · right
      refine ⟨rest, ?_⟩
      simp [List.dropWhile_cons, hc]
    · have hc2 : (c != ' ') = true := by simp [bne, hc]
      simpa [List.dropWhile_cons, hc2] using ih

theorem mem_takeWhile_ne_sp :
    ∀ (l : List Char) (y : Char), y ∈ l.takeWhile (fun z => z != ' ') →
      (y != ' ') = true := by
  intro l
  induction l with
  | nil => intro y hy; simp at hy
  | cons c rest ih =>
    intro y hy
    rw [List.takeWhile_cons] at hy
    by_cases hc : (c != ' ') = true
    · rw [if_pos hc] at hy
      rcases List.mem_cons.mp hy with h1 | h2
      · exact h1 ▸ hc
      · exact ih y h2
    · rw [if_neg hc] at hy
      simp at hy

theorem tokens_space_append (u w : List Char) :
    tokens (u ++ ' ' :: w) = tokens u ++ tokens w := by
  have key : ∀ (n : Nat) (u w : List Char), u.length ≤ n →
      tokens (u ++ ' ' :: w) = tokens u ++ tokens w := by
    intro n
    induction n with
    | zero =>
      intro u w hu
      have h0 : u = [] := by
        cases u with
        | nil => rfl
        | cons a b => simp at hu
      subst h0
      simp [tokens_cons_sp, tokens]
    | succ n ih =>
      intro u w hu
      cases u with
      | nil => simp [tokens_cons_sp, tokens]
      | cons x u2 =>
        have hu2 : u2.length ≤ n := by simpa using hu
        by_cases hx : x = ' '
        · subst hx
          simp only [List.cons_append, tokens_cons_sp]
          exact ih u2 w hu2
        · have hxb : (x == ' ') = false := by simp [hx]
          rcases dropWhile_sp_shape u2 with hcase | ⟨q, hq⟩
          · have hall : ∀ y ∈ u2, (y != ' ') = true := by
              intro y hy
              have := List.dropWhile_eq_nil_iff.mp hcase
              exact this y hy
            have htd := takeWhile_dropWhile_all_ne u2 w hall
            have htd2 := takeWhile_dropWhile_of_all u2 hall
            rw [List.cons_append, tokens_cons_ne x (u2 ++ ' ' :: w) hxb,
              tokens_cons_ne x u2 hxb]
            rw [htd.1, htd.2, htd2.1, htd2.2, tokens_cons_sp]
            simp [tokens]
          · have hsplit : u2 = u2.takeWhile (fun y => y != ' ') ++ ' ' :: q := by
              have h0 := List.takeWhile_append_dropWhile (fun y => y != ' ') u2
              rw [hq] at h0
              exact h0.symm
            have htuall : ∀ y ∈ u2.takeWhile (fun y => y != ' '), (y != ' ') = true :=
              fun y hy => mem_takeWhile_ne_sp u2 y hy
            have hqlen : q.length ≤ n := by
              have h1 : u2.length = (u2.takeWhile (fun y => y != ' ')).length + 1 + q.length := by
                conv_lhs => rw [hsplit]
                simp only [List.length_append, List.length_cons]
                omega
              omega
            rw [List.cons_append, tokens_cons_ne x (u2 ++ ' ' :: w) hxb,
              tokens_cons_ne x u2 hxb]
            have hassoc : u2 ++ ' ' :: w =
                u2.takeWhile (fun y => y != ' ') ++ ' ' :: (q ++ ' ' :: w) := by
              conv_lhs => rw [hsplit]
              simp
            rw [hassoc]
            have htdA := takeWhile_dropWhile_all_ne
              (u2.takeWhile (fun y => y != ' ')) (q ++ ' ' :: w) htuall
            have htdB := takeWhile_dropWhile_all_ne
              (u2.takeWhile (fun y => y != ' ')) q htuall
            rw [htdA.1, htdA.2, tokens_cons_sp, ih q w hqlen]
            conv_rhs => rw [hsplit]
            rw [htdB.1, htdB.2, tokens_cons_sp]
            simp
  exact key u.length u w (Nat.le_refl _)

theorem tokens_self (c : List Char) (hne : c ≠ []) (hsp : ' ' ∉ c) :
    tokens c = [c] := by
  cases c with
  | nil => exact absurd rfl hne
  | cons x c2 =>
    have hx : (x == ' ') = false := by
      simp only [beq_eq_false_iff_ne, ne_eq]
      intro h
      exact hsp (by simp [h])
    have hall : ∀ y ∈ c2, (y != ' ') = true := by
      intro y hy
      simp only [bne_iff_ne, ne_eq]
      intro h
      exact hsp (by simp [h ▸ hy])
    have htd := takeWhile_dropWhile_of_all c2 hall
    rw [tokens_cons_ne x c2 hx, htd.1, htd.2]
    simp [tokens]

theorem mem_tokens_decomp (c : List Char) :
    ∀ (s : List Char), c ∈ tokens s →
      ∃ α β, s = α ++ c ++ β ∧
        (α = [] ∨ ∃ α2, α = α2 ++ [' ']) ∧
        (β = [] ∨ ∃ β2, β = ' ' :: β2) := by
  have key : ∀ (n : Nat) (s : List Char), s.length ≤ n → c ∈ tokens s →
      ∃ α β, s = α ++ c ++ β ∧
        (α = [] ∨ ∃ α2, α = α2 ++ [' ']) ∧
        (β = [] ∨ ∃ β2, β = ' ' :: β2) := by
    intro n
    induction n with
    | zero =>
      intro s hs hc
      have h0 : s = [] := by
        cases s with
        | nil => rfl
        | cons a b => simp at hs
      subst h0
      simp [tokens] at hc
    | succ n ih =>
      intro s hs hc
      cases s with
      | nil => simp [tokens] at hc
      | cons x s2 =>
        have hs2 : s2.length ≤ n := by simpa using hs
        by_cases hx : x = ' '
        · subst hx
          rw [tokens_cons_sp] at hc
          obtain ⟨α, β, hdec, hα, hβ⟩ := ih s2 hs2 hc
          refine ⟨' ' :: α, β, by simp [hdec], ?_, hβ⟩
          right
          rcases hα with h0 | ⟨α2, h2⟩
          · exact ⟨[], by simp [h0]⟩
          · exact ⟨' ' :: α2, by simp [h2]⟩
        · have hxb : (x == ' ') = false := by simp [hx]
          rw [tokens_cons_ne x s2 hxb] at hc
          rcases List.mem_cons.mp hc with hc1 | hc2
          · refine ⟨[], s2.dropWhile (fun y => y != ' '), ?_, Or.inl rfl, ?_⟩
            · rw [hc1]
              simp only [List.nil_append, List.cons_append, List.cons.injEq, true_and]
              exact (List.takeWhile_append_dropWhile (fun y => y != ' ') s2).symm
            · exact dropWhile_sp_shape s2
          · rcases dropWhile_sp_shape s2 with hcase | ⟨q, hq⟩
            · rw [hcase] at hc2
              simp [tokens] at hc2
            · rw [hq, tokens_cons_sp] at hc2
              have hqlen : q.length ≤ n := by
                have h1 := length_dropWhile_le_gen (fun y => y != ' ') s2
                rw [hq] at h1
                simp at h1
                omega
              obtain ⟨α, β, hdec, hα, hβ⟩ := ih q hqlen hc2
              refine ⟨x :: s2.takeWhile (fun y => y != ' ') ++ ' ' :: α, β, ?_, ?_, hβ⟩
              · have hsplit : s2 = s2.takeWhile (fun y => y != ' ') ++ ' ' :: q := by
                  have h0 := List.takeWhile_append_dropWhile (fun y => y != ' ') s2
                  rw [hq] at h0
                  exact h0.symm
                conv_lhs => rw [hsplit, hdec]
                simp
              · right
                rcases hα with h0 | ⟨α2, h2⟩
                · exact ⟨x :: s2.takeWhile (fun y => y != ' '), by simp [h0]⟩
                · exact ⟨x :: s2.takeWhile (fun y => y != ' ') ++ ' ' :: α2, by simp [h2]⟩
  intro s
  exact key s.length s (Nat.le_refl _)

theorem padded_token_iff (s c : List Char) (hne : c ≠ []) (hsp : ' ' ∉ c) :
    containsSeg (' ' :: c ++ [' ']) (' ' :: s ++ [' ']) = true ↔ c ∈ tokens s := by
  rw [containsSeg_iff]
  constructor
  · rintro ⟨u, v, huv⟩
    cases u with
    | nil =>
      simp only [List.nil_append, List.cons_append, List.cons.injEq] at huv
      have E : s ++ [' '] = c ++ ' ' :: v := by
        rw [huv.2]
        simp
      rcases List.eq_nil_or_concat v with hv | ⟨v2, x, hv⟩
      · subst hv
        have hsc : s = c := by
          have h0 := List.append_inj' E rfl
          exact h0.1
        rw [hsc, tokens_self c hne hsp]
        simp
      · subst hv
        have E2 : s ++ [' '] = (c ++ ' ' :: v2) ++ [x] := by
          rw [E]
          simp
        have h0 := List.append_inj' E2 rfl
        rw [h0.1, tokens_space_append, tokens_self c hne hsp]
        simp
    | cons y u2 =>
      simp only [List.cons_append, List.cons.injEq] at huv
      have E : s ++ [' '] = u2 ++ ' ' :: c ++ [' '] ++ v := by
        rw [huv.2]
        simp
      rcases List.eq_nil_or_concat v with hv | ⟨v2, x, hv⟩
      · subst hv
        have E2 : s ++ [' '] = (u2 ++ ' ' :: c) ++ [' '] := by
          rw [E]
          simp
        have h0 := List.append_inj' E2 rfl
        rw [h0.1, tokens_space_append, tokens_self c hne hsp]
        simp
      · subst hv
        have E2 : s ++ [' '] = (u2 ++ ' ' :: (c ++ ' ' :: v2)) ++ [x] := by
          rw [E]
          simp
        have h0 := List.append_inj' E2 rfl
        rw [h0.1, tokens_space_append, tokens_space_append, tokens_self c hne hsp]
        simp
  · intro hc
    obtain ⟨α, β, hdec, hα, hβ⟩ := mem_tokens_decomp c s hc
    rcases hα with hα0 | ⟨α2, hα2⟩
    · rcases hβ with hβ0 | ⟨β2, hβ2⟩
      · refine ⟨[], [], ?_⟩
        subst hα0; subst hβ0
        simp only [List.nil_append, List.append_nil] at hdec
        rw [hdec]
        simp
      · refine ⟨[], β2 ++ [' '], ?_⟩
        subst hα0; subst hβ2
        simp only [List.nil_append] at hdec
        rw [hdec]
        simp
    · rcases hβ with hβ0 | ⟨β2, hβ2⟩
      · refine ⟨' ' :: α2, [], ?_⟩
        subst hα2; subst hβ0
        simp only [List.append_nil] at hdec
        rw [hdec]
        simp
      · refine ⟨' ' :: α2, β2 ++ [' '], ?_⟩
        subst hα2; subst hβ2
        rw [hdec]
        simp

/-- Claim C7: the class-membership predicate `hasClassName` (backing `.c`
selectors and `hasClass`) holds for a node and a class name (a non-empty
string without spaces) iff the class name occurs as an exact
space-delimited token of the node's `className` prop; the test is
case-sensitive and bounded by spaces, so `foo` does not match `foobar`. -/
theorem c7_hasClassName_iff_token (node : Node) (c : String)
    (h1 : c.data ≠ []) (h2 : ' ' ∉ c.data) :
    hasClassName node c = true ↔ c.data ∈ tokens (classesOf node).data :=
  padded_token_iff (classesOf node).data c.data h1 h2

/-- Witness for claim C7 at a node with class string `"foo bar"` and the
class name `"bar"`. -/
theorem c7_hasClassName_iff_token_witness :
    hasClassName c7N "bar" = true ↔ "bar".data ∈ tokens (classesOf c7N).data :=
  c7_hasClassName_iff_token c7N "bar" (by decide) (by decide)

/-- Claim C6: `findWhere` with the constantly-true predicate on the root
wrapper of a tree with pairwise distinct nodes returns every node of the
tree in pre-order: the node list is the pre-order list, its length is the
number of tree nodes, and the root is the first element. -/
theorem c6_findWhere_true_is_preorder (t : Node) (h : (preorder t).Nodup) :
    (findWhere (rootSW t) (fun _ => true)).nodes = preorder t ∧
    (findWhere (rootSW t) (fun _ => true)).length = treeSize t ∧
    (findWhere (rootSW t) (fun _ => true)).nodes.head? = some t := by
  have hnodes : (findWhere (rootSW t) (fun _ => true)).nodes = preorder t := by
    simp only [findWhere, flatMapSW, rootSW, mkSW, treeFilter, List.map_cons,
      List.map_nil, List.flatten]
    rw [List.filter_true]
    simp only [List.append_nil]
    exact uniqueFirst_eq_of_nodup _ h
  refine ⟨hnodes, ?_, ?_⟩
  · simp only [SW.length, hnodes]
    exact preorder_length t
  · rw [hnodes, preorder_eq]
    rfl

/-- Witness for claim C6 at a concrete three-node tree. -/
theorem c6_findWhere_true_is_preorder_witness :
    (findWhere (rootSW c6T) (fun _ => true)).nodes = preorder c6T ∧
    (findWhere (rootSW c6T) (fun _ => true)).length = treeSize c6T ∧
    (findWhere (rootSW c6T) (fun _ => true)).nodes.head? = some c6T :=
  c6_findWhere_true_is_preorder c6T (by decide)

theorem lookupProp_some_mem :
    ∀ (ps : List (String × PropVal)) (k : String) (v : PropVal),
      lookupProp k ps = some v → (k, v) ∈ ps := by
  intro ps
  induction ps with
  | nil => intro k v h; simp [lookupProp] at h
  | cons kv rest ih =>
    intro k v h
    obtain ⟨k2, w⟩ := kv
    rw [lookupProp] at h
    by_cases hk : k2 = k
    · rw [if_pos (by simp [hk])] at h
      have hw : w = v := by injection h
      subst hk; subst hw
      simp
    · rw [if_neg (by simp [hk])] at h
      exact List.mem_cons_of_mem _ (ih k v h)

theorem mem_lookupProp :
    ∀ (ps : List (String × PropVal)) (k : String) (v : PropVal),
      propsKeysNodup ps = true → (k, v) ∈ ps → lookupProp k ps = some v := by
  intro ps
  induction ps with
  | nil => intro k v _ h; simp at h
  | cons kv rest ih =>
    intro k v hnd hmem
    obtain ⟨k2, w⟩ := kv
    rw [propsKeysNodup, Bool.and_eq_true] at hnd
    rw [lookupProp]
    rcases List.mem_cons.mp hmem with h1 | h2
    · have hk : k = k2 := by
        have := congrArg Prod.fst h1
        simpa using this
      have hv : v = w := by
        have := congrArg Prod.snd h1
        simpa using this
      subst hk; subst hv
      simp
    · by_cases hk : k2 = k
      · exfalso
        subst hk
        have hany : rest.any (fun x => x.1 == k2) = true :=
          List.any_eq_true.mpr ⟨(k2, v), h2, by simp⟩
        rw [hany] at hnd
        simp at hnd
      · rw [if_neg (by simp [hk])]
        exact ih k v hnd.2 h2

theorem propsLeftIncl_forall (pa pb : List (String × PropVal)) :
    propsLeftIncl pa pb = true ↔ ∀ kv ∈ pa, lookupProp kv.1 pb = some kv.2 := by
  rw [propsLeftIncl, List.all_eq_true]
  constructor
  · intro h kv hkv
    have h2 := h kv hkv
    cases he : lookupProp kv.1 pb with
    | none => rw [he] at h2; simp at h2
    | some w =>
      rw [he] at h2
      simp only [beq_iff_eq] at h2
      rw [h2]
  · intro h kv hkv
    rw [h kv hkv]
    simp

theorem keys_sub_of_propsLeftIncl (pa pb : List (String × PropVal))
    (h : propsLeftIncl pa pb = true) :
    pa.map Prod.fst ⊆ pb.map Prod.fst := by
  intro k hk
  obtain ⟨kv, hmem, hfst⟩ := List.mem_map.mp hk
  have h2 := (propsLeftIncl_forall pa pb).mp h kv hmem
  have h3 := lookupProp_some_mem pb kv.1 kv.2 h2
  exact List.mem_map.mpr ⟨(kv.1, kv.2), h3, hfst⟩

theorem nodup_keys_of_propsKeysNodup :
    ∀ (ps : List (String × PropVal)), propsKeysNodup ps = true →
      (ps.map Prod.fst).Nodup := by
  intro ps
  induction ps with
  | nil => intro _; simp
  | cons kv rest ih =>
    intro hnd
    obtain ⟨k2, w⟩ := kv
    rw [propsKeysNodup, Bool.and_eq_true] at hnd
    simp only [List.map_cons, List.nodup_cons]
    constructor
    · intro hk
      obtain ⟨kv2, hmem2, hfst2⟩ := List.mem_map.mp hk
      have : rest.any (fun x => x.1 == k2) = true :=
        List.any_eq_true.mpr ⟨kv2, hmem2, by simp [hfst2]⟩
      rw [this] at hnd
      simp at hnd
    · exact ih hnd.2

theorem length_le_of_propsLeftIncl (pa pb : List (String × PropVal))
    (hnda : propsKeysNodup pa = true) (h : propsLeftIncl pa pb = true) :
    pa.length ≤ pb.length := by
  have h1 : (pa.map Prod.fst).Nodup := nodup_keys_of_propsKeysNodup pa hnda
  have h2 : pa.map Prod.fst ⊆ pb.map Prod.fst := keys_sub_of_propsLeftIncl pa pb h
  have h3 := (h1.subperm h2).length_le
  simpa using h3

theorem propsLeftIncl_reverse (pa pb : List (String × PropVal))
    (hnda : propsKeysNodup pa = true) (hndb : propsKeysNodup pb = true)
    (h : propsLeftIncl pa pb = true) (hlen : pb.length ≤ pa.length) :
    propsLeftIncl pb pa = true := by
  have hfor := (propsLeftIncl_forall pa pb).mp h
  rw [propsLeftIncl_forall]
  intro kv hkv
  have h1 : (pa.map Prod.fst).Nodup := nodup_keys_of_propsKeysNodup pa hnda
  have h2 : pa.map Prod.fst ⊆ pb.map Prod.fst := keys_sub_of_propsLeftIncl pa pb h
  have h4 : List.Perm (pa.map Prod.fst) (pb.map Prod.fst) :=
    (h1.subperm h2).perm_of_length_le (by simpa using hlen)
  have hkb : kv.1 ∈ pb.map Prod.fst := List.mem_map.mpr ⟨kv, hkv, rfl⟩
  have hka : kv.1 ∈ pa.map Prod.fst := h4.mem_iff.mpr hkb
  obtain ⟨kv2, hmem1, hfst⟩ := List.mem_map.mp hka
  have e1 : lookupProp kv.1 pb = some kv2.2 := by
    rw [← hfst]
    exact hfor kv2 hmem1
  have e2 : lookupProp kv.1 pb = some kv.2 := by
    have hkv2 : (kv.1, kv.2) ∈ pb := by
      rw [Prod.mk.eta]
      exact hkv
    exact mem_lookupProp pb kv.1 kv.2 hndb hkv2
  have hv : kv2.2 = kv.2 := by
    rw [e1] at e2
    injection e2
  have hmem2 : (kv.1, kv.2) ∈ pa := by
    have hkv2eq : kv2 = (kv.1, kv.2) := by
      obtain ⟨a, b⟩ := kv2
      simp only at hfst hv
      rw [hfst, hv]
    rw [← hkv2eq]
    exact hmem1
  exact mem_lookupProp pa kv.1 kv.2 hnda hmem2

theorem one_le_sizeOf_listNode (l : List Node) : 1 ≤ sizeOf l := by
  cases l <;> simp_arith

theorem one_le_sizeOf_ckind (k : CKind) : 1 ≤ sizeOf k := by
  cases k <;> simp

theorem one_le_sizeOf_node (n : Node) : 1 ≤ sizeOf n := by
  cases n <;> simp_arith

theorem sizeOf_elem_lower (t : String) (p : List (String × PropVal)) (k : CKind)
    (l : List Node) : sizeOf l + 3 ≤ sizeOf (Node.elem t p k l) := by
  have h1 : 1 ≤ sizeOf p := by cases p <;> simp_arith
  have h2 : 1 ≤ sizeOf k := one_le_sizeOf_ckind k
  simp only [Node.elem.sizeOf_spec]
  omega

theorem nodeListBEq_iff (l1 l2 : List Node) : nodeListBEq l1 l2 = true ↔ l1 = l2 :=
  nodeListBEq_iff_aux l1 l2 (fun x _ y => nodeBEq_iff x y)

theorem nodeWF_elem (t : String) (p : List (String × PropVal)) (k : CKind)
    (l : List Node) :
    nodeWF (.elem t p k l) = true ↔ propsKeysNodup p = true ∧ nodeListWF l = true := by
  rw [nodeWF]
  simp

theorem nodeListWF_cons (x : Node) (xs : List Node) :
    nodeListWF (x :: xs) = true ↔ nodeWF x = true ∧ nodeListWF xs = true := by
  rw [nodeListWF]
  simp

theorem listNodeEqual_symm_imp (m : Nat)
    (IH : ∀ x y : Node, sizeOf x + sizeOf y ≤ m → nodeWF x = true → nodeWF y = true →
      nodeEqual x y = true → nodeEqual y x = true) :
    ∀ (l1 l2 : List Node), nodeListWF l1 = true → nodeListWF l2 = true →
      sizeOf l1 + sizeOf l2 ≤ m + 2 →
      listNodeEqual l1 l2 = true → listNodeEqual l2 l1 = true := by
  intro l1
  induction l1 with
  | nil =>
    intro l2 _ _ _ h
    cases l2 with
    | nil => exact h
    | cons y ys => simp [listNodeEqual] at h
  | cons x xs ih =>
    intro l2 hw1 hw2 hsz h
    cases l2 with
    | nil => simp [listNodeEqual] at h
    | cons y ys =>
      rw [listNodeEqual, Bool.and_eq_true] at h
      rw [listNodeEqual, Bool.and_eq_true]
      obtain ⟨hwx, hwxs⟩ := (nodeListWF_cons x xs).mp hw1
      obtain ⟨hwy, hwys⟩ := (nodeListWF_cons y ys).mp hw2
      have e1 : sizeOf (x :: xs) = 1 + sizeOf x + sizeOf xs := by simp
      have e2 : sizeOf (y :: ys) = 1 + sizeOf y + sizeOf ys := by simp
      have hx1 := one_le_sizeOf_listNode xs
      have hy1 := one_le_sizeOf_listNode ys
      refine ⟨IH x y (by omega) hwx hwy h.1, ih ys hwxs hwys (by omega) h.2⟩

theorem childrenCmpInline_symm_imp (m : Nat)
    (IH : ∀ x y : Node, sizeOf x + sizeOf y ≤ m → nodeWF x = true → nodeWF y = true →
      nodeEqual x y = true → nodeEqual y x = true)
    (k1 k2 : CKind) (l1 l2 : List Node)
    (hw1 : nodeListWF l1 = true) (hw2 : nodeListWF l2 = true)
    (hsz : sizeOf l1 + sizeOf l2 ≤ m + 2)
    (h : childrenCmpInline k1 l1 k2 l2 = true) :
    childrenCmpInline k2 l2 k1 l1 = true := by
  rw [childrenCmpInline.eq_def] at h
  rw [childrenCmpInline.eq_def]
  by_cases hb : (k1 == k2 && nodeListBEq l1 l2) = true
  · rw [Bool.and_eq_true, beq_iff_eq, nodeListBEq_iff] at hb
    obtain ⟨hk, hl⟩ := hb
    subst hk; subst hl
    rw [if_pos (by simp [nodeListBEq_iff])]
  · have hb2 : ¬((k2 == k1 && nodeListBEq l2 l1) = true) := by
      intro hx
      rw [Bool.and_eq_true, beq_iff_eq, nodeListBEq_iff] at hx
      exact hb (by rw [Bool.and_eq_true, beq_iff_eq, nodeListBEq_iff]
                   exact ⟨hx.1.symm, hx.2.symm⟩)
    rw [if_neg hb] at h
    rw [if_neg hb2]
    by_cases hna : (k1 != .array && k2 != .array) = true
    · have hna2 : (k2 != .array && k1 != .array) = true := by
        rw [Bool.and_eq_true] at hna
        rw [Bool.and_eq_true]
        exact ⟨hna.2, hna.1⟩
      rw [if_pos hna] at h
      rw [if_pos hna2]
      cases l1 with
      | nil =>
        cases l2 with
        | nil => exact h
        | cons y ys =>
          have hy : Node.undef = y := (nodeBEq_iff Node.undef y).mp h
          rw [← hy]
          rfl
      | cons x xs =>
        cases l2 with
        | nil =>
          have hx : x = Node.undef := (nodeBEq_iff x Node.undef).mp h
          rw [hx]
          rfl
        | cons y ys =>
          obtain ⟨hwx, _⟩ := (nodeListWF_cons x xs).mp hw1
          obtain ⟨hwy, _⟩ := (nodeListWF_cons y ys).mp hw2
          have e1 : sizeOf (x :: xs) = 1 + sizeOf x + sizeOf xs := by simp
          have e2 : sizeOf (y :: ys) = 1 + sizeOf y + sizeOf ys := by simp
          have hx1 := one_le_sizeOf_listNode xs
          have hy1 := one_le_sizeOf_listNode ys
          exact IH x y (by omega) hwx hwy h
    · have hna2 : ¬((k2 != .array && k1 != .array) = true) := by
        intro hx
        rw [Bool.and_eq_true] at hx
        exact hna (by rw [Bool.and_eq_true]; exact ⟨hx.2, hx.1⟩)
      rw [if_neg hna] at h
      rw [if_neg hna2]
      by_cases ht : (!(childTruthy k1 l1) && !(childTruthy k2 l2)) = true
      · rw [Bool.and_eq_true] at ht
        rw [if_pos (by rw [Bool.and_eq_true]; exact ⟨ht.2, ht.1⟩)]
      · have ht2 : ¬((!(childTruthy k2 l2) && !(childTruthy k1 l1)) = true) := by
          intro hx
          rw [Bool.and_eq_true] at hx
          exact ht (by rw [Bool.and_eq_true]; exact ⟨hx.2, hx.1⟩)
        rw [if_neg ht] at h
        rw [if_neg ht2]
        by_cases hlen : (jsChildLen k1 l1 != jsChildLen k2 l2) = true
        · rw [if_pos hlen] at h
          exact absurd h (by simp)
        · have hleq : jsChildLen k1 l1 = jsChildLen k2 l2 := by
            simpa using hlen
          have hlen2 : ¬((jsChildLen k2 l2 != jsChildLen k1 l1) = true) := by
            simp [hleq.symm]
          rw [if_neg hlen] at h
          rw [if_neg hlen2]
          exact listNodeEqual_symm_imp m IH l1 l2 hw1 hw2 hsz h

theorem nodeEqual_refl (n : Node) : nodeEqual n n = true := by
  have h : nodeBEq n n = true := (nodeBEq_iff n n).mpr rfl
  rw [nodeEqual.eq_def, h]
  simp

theorem nodeEqual_undef_right (x : Node) : nodeEqual x Node.undef = nodeBEq x Node.undef := by
  cases x <;> simp [nodeEqual.eq_def, nodeBEq, truthy]

theorem nodeEqual_undef_left (y : Node) : nodeEqual Node.undef y = nodeBEq Node.undef y := by
  cases y <;> simp [nodeEqual.eq_def, nodeBEq, truthy]

theorem nodeEqual_elem (t1 : String) (p1 : List (String × PropVal)) (k1 : CKind)
    (l1 : List Node) (t2 : String) (p2 : List (String × PropVal)) (k2 : CKind)
    (l2 : List Node) :
    nodeEqual (.elem t1 p1 k1 l1) (.elem t2 p2 k2 l2) =
      if nodeBEq (.elem t1 p1 k1 l1) (.elem t2 p2 k2 l2) then true
      else if t1 != t2 then false
      else (propsLeftIncl p1 p2 &&
        (match k1 with
         | .absent => true
         | _ =>
           match k2 with
           | .absent => false
           | _ => childrenCmpInline k1 l1 k2 l2)) &&
        (keyCount p1 k1 == keyCount p2 k2) := by
  rw [nodeEqual.eq_def]
  rfl

theorem childrenCmpInline_eq_childrenEqual (k1 k2 : CKind) (l1 l2 : List Node)
    (h1 : k1 ≠ .absent) (h2 : k2 ≠ .absent) :
    childrenCmpInline k1 l1 k2 l2 = childrenEqual k1 l1 k2 l2 := by
  rw [childrenCmpInline.eq_def]
  unfold childrenEqual
  by_cases hb : (k1 == k2 && nodeListBEq l1 l2) = true
  · rw [if_pos hb, if_pos hb]
  · rw [if_neg hb, if_neg hb]
    by_cases hna : (k1 != .array && k2 != .array) = true
    · rw [if_pos hna, if_pos hna]
      rw [Bool.and_eq_true] at hna
      have hk1 : k1 = .single := by
        cases k1 with
        | absent => exact absurd rfl h1
        | single => rfl
        | array => simp at hna
      have hk2 : k2 = .single := by
        cases k2 with
        | absent => exact absurd rfl h2
        | single => rfl
        | array =>
          obtain ⟨_, hx⟩ := hna
          simp at hx
      subst hk1; subst hk2
      cases l1 with
      | nil =>
        cases l2 with
        | nil => simp [asChildNode, nodeEqual_undef_left, nodeBEq]
        | cons y ys => simp [asChildNode, nodeEqual_undef_left]
      | cons x xs =>
        cases l2 with
        | nil => simp [asChildNode, nodeEqual_undef_right]
        | cons y ys => simp [asChildNode]
    · rw [if_neg hna, if_neg hna]

theorem nodeEqual_nonelem (a b : Node) (ha : nodeType a = none) (hb : nodeType b = none)
    (hbeq : nodeBEq a b = false) : nodeEqual a b = (truthy a && truthy b) := by
  cases a <;> cases b <;> simp_all [nodeEqual.eq_def, nodeType]

theorem nodeEqual_symm_nonelem (a b : Node) (ha : nodeType a = none)
    (hb : nodeType b = none) (h1 : nodeBEq a b = false) (h2 : nodeBEq b a = false)
    (h : nodeEqual a b = true) : nodeEqual b a = true := by
  rw [nodeEqual_nonelem a b ha hb h1] at h
  rw [nodeEqual_nonelem b a hb ha h2, Bool.and_comm]
  exact h

theorem nodeEqual_symm_imp :
    ∀ (m : Nat) (a b : Node), sizeOf a + sizeOf b ≤ m →
      nodeWF a = true → nodeWF b = true →
      nodeEqual a b = true → nodeEqual b a = true := by
  intro m
  induction m with
  | zero =>
    intro a b hm _ _ _
    exfalso
    have h1 := one_le_sizeOf_node a
    have h2 := one_le_sizeOf_node b
    omega
  | succ m ih =>
    intro a b hm hwa hwb h
    by_cases hbeq : nodeBEq a b = true
    · have hab := (nodeBEq_iff a b).mp hbeq
      subst hab
      exact h
    · have hbeqF : nodeBEq a b = false := Bool.eq_false_iff.mpr hbeq
      have hbeq2F : nodeBEq b a = false := by
        rw [Bool.eq_false_iff]
        intro hx
        exact hbeq ((nodeBEq_iff a b).mpr ((nodeBEq_iff b a).mp hx).symm)
      cases a with
      | elem t1 p1 k1 l1 =>
        cases b with
        | elem t2 p2 k2 l2 =>
          rw [nodeEqual_elem, hbeqF] at h
          simp only [Bool.false_eq_true, if_false] at h
          by_cases hT : (t1 != t2) = true
          · rw [if_pos hT] at h
            simp at h
          · rw [if_neg hT] at h
            have ht12 : t1 = t2 := by simpa using hT
            rw [Bool.and_eq_true, Bool.and_eq_true] at h
            obtain ⟨⟨hP, hCH⟩, hK⟩ := h
            have hKeq : keyCount p1 k1 = keyCount p2 k2 := by simpa using hK
            obtain ⟨hnd1, hlw1⟩ := (nodeWF_elem t1 p1 k1 l1).mp hwa
            obtain ⟨hnd2, hlw2⟩ := (nodeWF_elem t2 p2 k2 l2).mp hwb
            have hlow1 := sizeOf_elem_lower t1 p1 k1 l1
            have hlow2 := sizeOf_elem_lower t2 p2 k2 l2
            rw [nodeEqual_elem, hbeq2F]
            simp only [Bool.false_eq_true, if_false]
            have hT2 : ¬((t2 != t1) = true) := by simp [ht12]
            rw [if_neg hT2]
            rw [Bool.and_eq_true, Bool.and_eq_true]
            have hK2 : (keyCount p2 k2 == keyCount p1 k1) = true := by simp [hKeq]
            cases k1 with
            | absent =>
              cases k2 with
              | absent =>
                have hlen : p2.length ≤ p1.length := by
                  simp only [keyCount] at hKeq
                  omega
                exact ⟨⟨propsLeftIncl_reverse p1 p2 hnd1 hnd2 hP hlen, rfl⟩, hK2⟩
              | single =>
                exfalso
                have hle := length_le_of_propsLeftIncl p1 p2 hnd1 hP
                simp only [keyCount] at hKeq
                omega
              | array =>
                exfalso
                have hle := length_le_of_propsLeftIncl p1 p2 hnd1 hP
                simp only [keyCount] at hKeq
                omega
            | single =>
              cases k2 with
              | absent => simp at hCH
              | single =>
                have hlen : p2.length ≤ p1.length := by
                  simp only [keyCount] at hKeq
                  omega
                refine ⟨⟨propsLeftIncl_reverse p1 p2 hnd1 hnd2 hP hlen, ?_⟩, hK2⟩
                exact childrenCmpInline_symm_imp m ih .single .single l1 l2
                  hlw1 hlw2 (by omega) hCH
              | array =>
                have hlen : p2.length ≤ p1.length := by
                  simp only [keyCount] at hKeq
                  omega
                refine ⟨⟨propsLeftIncl_reverse p1 p2 hnd1 hnd2 hP hlen, ?_⟩, hK2⟩
                exact childrenCmpInline_symm_imp m ih .single .array l1 l2
                  hlw1 hlw2 (by omega) hCH
            | array =>
              cases k2 with
              | absent => simp at hCH
              | single =>
                have hlen : p2.length ≤ p1.length := by
                  simp only [keyCount] at hKeq
                  omega
                refine ⟨⟨propsLeftIncl_reverse p1 p2 hnd1 hnd2 hP hlen, ?_⟩, hK2⟩
                exact childrenCmpInline_symm_imp m ih .array .single l1 l2
                  hlw1 hlw2 (by omega) hCH
              | array =>
                have hlen : p2.length ≤ p1.length := by
                  simp only [keyCount] at hKeq
                  omega
                refine ⟨⟨propsLeftIncl_reverse p1 p2 hnd1 hnd2 hP hlen, ?_⟩, hK2⟩
                exact childrenCmpInline_symm_imp m ih .array .array l1 l2
                  hlw1 hlw2 (by omega) hCH
        | text s2 =>
          rw [nodeEqual.eq_def, hbeqF] at h
          simp at h
        | num n2 =>
          rw [nodeEqual.eq_def, hbeqF] at h
          simp at h
        | undef =>
          rw [nodeEqual.eq_def, hbeqF] at h
          simp at h
      | text s1 =>
        cases b with
        | elem t2 p2 k2 l2 =>
          rw [nodeEqual.eq_def, hbeqF] at h
          simp at h
        | text s2 =>
          exact nodeEqual_symm_nonelem _ _ rfl rfl hbeqF hbeq2F h
        | num n2 =>
          exact nodeEqual_symm_nonelem _ _ rfl rfl hbeqF hbeq2F h
        | undef =>
          exact nodeEqual_symm_nonelem _ _ rfl rfl hbeqF hbeq2F h
      | num n1 =>
        cases b with
        | elem t2 p2 k2 l2 =>
          rw [nodeEqual.eq_def, hbeqF] at h
          simp at h
        | text s2 =>
          exact nodeEqual_symm_nonelem _ _ rfl rfl hbeqF hbeq2F h
        | num n2 =>
          exact nodeEqual_symm_nonelem _ _ rfl rfl hbeqF hbeq2F h
        | undef =>
          exact nodeEqual_symm_nonelem _ _ rfl rfl hbeqF hbeq2F h
      | undef =>
        cases b with
        | elem t2 p2 k2 l2 =>
          rw [nodeEqual.eq_def, hbeqF] at h
          simp at h
        | text s2 =>
          exact nodeEqual_symm_nonelem _ _ rfl rfl hbeqF hbeq2F h
        | num n2 =>
          exact nodeEqual_symm_nonelem _ _ rfl rfl hbeqF hbeq2F h
        | undef =>
          exact nodeEqual_symm_nonelem _ _ rfl rfl hbeqF hbeq2F h

/-- Claim C5: the structural-equality predicate `nodeEqual` is reflexive,
and symmetric on well-formed nodes (nodes whose props maps have
duplicate-free keys, as JS objects do), including for nodes whose
children prop mixes a single child with a list of children. -/
theorem c5_nodeEqual_refl_symm :
    (∀ n : Node, nodeEqual n n = true) ∧
    (∀ a b : Node, nodeWF a = true → nodeWF b = true →
      nodeEqual a b = nodeEqual b a) := by
  refine ⟨nodeEqual_refl, ?_⟩
  intro a b hwa hwb
  by_cases h1 : nodeEqual a b = true
  · rw [h1, nodeEqual_symm_imp (sizeOf a + sizeOf b) a b (Nat.le_refl _) hwa hwb h1]
  · by_cases h2 : nodeEqual b a = true
    · exact absurd (nodeEqual_symm_imp (sizeOf b + sizeOf a) b a (Nat.le_refl _)
        hwb hwa h2) h1
    · rw [Bool.eq_false_iff.mpr h1, Bool.eq_false_iff.mpr h2]

/-- Witness for claim C5 at concrete nodes: reflexivity at a node with a
single child, and symmetry at a pair mixing a single child with a
one-element child list. -/
theorem c5_nodeEqual_refl_symm_witness :
    nodeEqual c5a c5a = true ∧ nodeEqual c5a c5b = nodeEqual c5b c5a :=
  ⟨c5_nodeEqual_refl_symm.1 c5a,
   c5_nodeEqual_refl_symm.2 c5a c5b (by decide) (by decide)⟩

end Enzyme
